import Mathlib

set_option maxHeartbeats 1000000

/-!
Verification of the crossword CSP solver (`generate.py`): a shallow embedding
of `CrosswordCreator` and proofs about its consistency propagation and
backtracking search.  The external puzzle structure (`crossword.py`) is
consumed through the interface the spec declares for it.
-/

namespace CrosswordCSP

/-- A candidate word, as its list of characters. -/
abbrev Word := List Char

/-- A slot variable.  The solver treats variables opaquely (hashable keys of
the domain dictionary), so we identify them abstractly. -/
abbrev Var := Nat

/-- Modelled from the spec: the external Puzzle Structure boundary (spec
paragraph 6): the set of variables (as the iteration order of the domain
dictionary), each variable's required length, the vocabulary, and the derived
overlap mapping `overlap(x, y) -> Option (offsetIntoX, offsetIntoY)`. -/
structure Puzzle where
  vars : List Var
  length : Var → Nat
  words : List Word
  overlaps : Var → Var → Option (Nat × Nat)

/-- Well-formedness of the external puzzle structure, assumed as a
precondition by the core (spec paragraph 7): variables form a set, no
variable overlaps itself, and the overlap mapping is symmetric with swapped
offsets. -/
structure WF (p : Puzzle) : Prop where
  nodupVars : p.vars.Nodup
  irrefl : ∀ v ∈ p.vars, p.overlaps v v = none
  symm : ∀ x ∈ p.vars, ∀ y ∈ p.vars,
    p.overlaps y x = (p.overlaps x y).map (fun q => (q.2, q.1))

/-- Modelled from the spec: `neighbors(v)`, the variables overlapping `v`. -/
def neighbors (p : Puzzle) (v : Var) : List Var :=
  p.vars.filter (fun u => decide (u ≠ v) && (p.overlaps v u).isSome)

/-- `len(self.crossword.neighbors(var))`, the degree used by
`select_unassigned_variable`. -/
def degree (p : Puzzle) (v : Var) : Nat := (neighbors p v).length

/-- The domain store `self.domains`: each variable's remaining candidates. -/
abbrev Domains := Var → List Word

/-- `__init__`: every variable starts with a copy of the vocabulary. -/
def initialDomains (p : Puzzle) : Domains := fun _ => p.words

/-- `enforce_node_consistency`: drop words whose length differs from the
variable's length. -/
def enforce_node_consistency (p : Puzzle) (d : Domains) : Domains :=
  fun v => (d v).filter (fun w => w.length == p.length v)

/-- The inner loop of `revise`: whether some `y_word` in `domY` supports
`xw`.  The overlap lookup sits inside the loop over `domY`, exactly as in the
source, so a `none` overlap leaves the flag false for every `y_word`. -/
def hasCorresponding (p : Puzzle) (x y : Var) (domY : List Word) (xw : Word) : Bool :=
  domY.any (fun yw =>
    match p.overlaps x y with
    | none => false
    | some (i, j) => xw.getD i '?' == yw.getD j '?')

/-- `revise(x, y)`: remove from `x`'s domain every word without a
corresponding word in `y`'s domain; report whether anything was removed. -/
def revise (p : Puzzle) (d : Domains) (x y : Var) : Domains × Bool :=
  (Function.update d x ((d x).filter (fun xw => hasCorresponding p x y (d y) xw)),
   (d x).any (fun xw => ! hasCorresponding p x y (d y) xw))

/-- The initial worklist built when `ac3` is called with `arcs=None`: all
ordered pairs of distinct overlapping variables, in iteration order. -/
def defaultArcs (p : Puzzle) : List (Var × Var) :=
  p.vars.flatMap (fun x =>
    (p.vars.filter (fun y => decide (x ≠ y) && (p.overlaps x y).isSome)).map
      (fun y => (x, y)))

/-- The arcs `(z, x)` that `ac3` appends after a successful revision of `x`
against `y`: every other neighbor `z` of `x`, in iteration order.  Appending
at the end of the Python list is pushing on the front of the reversed
worklist, in reverse iteration order. -/
def pushArcs (p : Puzzle) (x y : Var) : List (Var × Var) :=
  ((p.vars.filter (fun z =>
      decide (z ≠ x) && decide (z ≠ y) && (p.overlaps x z).isSome)).map
    (fun z => (z, x))).reverse

/-- The `while arcs:` loop of `ac3`.  The Python list pops from its end and
appends at its end, so the worklist is kept reversed here: the head is the
next arc popped.  `fuel` bounds the number of iterations; `none` means the
bound was hit (the claims are stated about completed runs). -/
def ac3Loop (p : Puzzle) : Nat → Domains → List (Var × Var) → Option (Domains × Bool)
  | 0, _, _ => none
  | _ + 1, d, [] => some (d, true)
  | fuel + 1, d, (x, y) :: rest =>
    let r := revise p d x y
    if r.2 then
      if (r.1 x).isEmpty then some (r.1, false)
      else ac3Loop p fuel r.1 (pushArcs p x y ++ rest)
    else ac3Loop p fuel r.1 rest

/-- `ac3(arcs=None)`: build the default worklist when `arcs` is `None`,
otherwise use the given list; then run the worklist loop. -/
def ac3 (p : Puzzle) (d : Domains) (fuel : Nat) (arcs : Option (List (Var × Var))) :
    Option (Domains × Bool) :=
  match arcs with
  | none => ac3Loop p fuel d (defaultArcs p).reverse
  | some l => ac3Loop p fuel d l.reverse

/-- A partial assignment: the Python dict, as an insertion-ordered
association list with distinct keys. -/
abbrev Assignment := List (Var × Word)

/-- Dictionary lookup `assignment[v]` / membership `v in assignment`. -/
def assignLookup (a : Assignment) (v : Var) : Option Word :=
  (a.find? (fun e => e.1 == v)).map (fun e => e.2)

/-- `assignment_complete`: the assignment has an entry of the right length
for every variable.  (The source's `assignment[var] is None` test cannot fire
here: dict values are words.) -/
def assignment_complete (p : Puzzle) (a : Assignment) : Bool :=
  (a.length == p.vars.length) &&
  p.vars.all (fun v =>
    match assignLookup a v with
    | none => false
    | some w => w.length == p.length v)

/-- `consistent`: all assigned words distinct (`len(set(values)) ==
len(assignment)`), lengths correct, and overlap characters agreeing for every
overlapping pair of the puzzle structure with both ends assigned. -/
def consistent (p : Puzzle) (a : Assignment) : Bool :=
  ((a.map Prod.snd).dedup.length == a.length) &&
  (a.all (fun e => e.2.length == p.length e.1)) &&
  (p.vars.all (fun x => p.vars.all (fun y =>
    match p.overlaps x y with
    | none => true
    | some (i, j) =>
      match assignLookup a x, assignLookup a y with
      | some wx, some wy => wx.getD i '?' == wy.getD j '?'
      | _, _ => true)))

/-- `count_rule_outs` inside `order_domain_values`: how many words this value
eliminates across the unassigned neighbors. -/
def count_rule_outs (p : Puzzle) (d : Domains) (a : Assignment) (var : Var)
    (value : Word) : Nat :=
  (neighbors p var).foldl (fun acc n =>
    if (assignLookup a n).isSome then acc
    else
      match p.overlaps var n with
      | none => acc
      | some (i, j) =>
        acc + ((d n).filter (fun w => ! (value.getD i '?' == w.getD j '?'))).length) 0

/-- Stable insertion for `sortByKey`. -/
def insertSortedBy (key : Word → Nat) (w : Word) : List Word → List Word
  | [] => [w]
  | x :: xs => if key w ≤ key x then w :: x :: xs else x :: insertSortedBy key w xs

/-- Python's stable `sorted(..., key=...)`, ascending. -/
def sortByKey (key : Word → Nat) (l : List Word) : List Word :=
  l.foldr (insertSortedBy key) []

/-- `order_domain_values`: the variable's domain sorted by rule-out count. -/
def order_domain_values (p : Puzzle) (d : Domains) (a : Assignment) (var : Var) :
    List Word :=
  sortByKey (count_rule_outs p d a var) (d var)

/-- Strict comparison of the key tuple `(domain_size(v), -degree(v))` used in
`min(unassigned, key=...)`. -/
def betterVar (p : Puzzle) (d : Domains) (v w : Var) : Bool :=
  decide ((d v).length < (d w).length ∨
    ((d v).length = (d w).length ∧ degree p w < degree p v))

/-- `select_unassigned_variable`: the first unassigned variable minimal under
`(domain_size, -degree)` (Python's `min` keeps the earliest minimum). -/
def select_unassigned_variable (p : Puzzle) (d : Domains) (a : Assignment) :
    Option Var :=
  match p.vars.filter (fun v => (assignLookup a v).isNone) with
  | [] => none
  | u :: us => some (us.foldl (fun best v => if betterVar p d v best then v else best) u)

/-- `backtrack`: recursive search.  `fuel` bounds the recursion depth (the
Python recursion is bounded by the number of unassigned variables); the
`none` on exhausted fuel coincides with the unreachable `domains[None]`
lookup the source would attempt if no variable were selectable. -/
def backtrack (p : Puzzle) (d : Domains) : Nat → Assignment → Option Assignment
  | 0, _ => none
  | fuel + 1, a =>
    if assignment_complete p a then some a
    else
      match select_unassigned_variable p d a with
      | none => none
      | some var =>
        (order_domain_values p d a var).findSome? (fun value =>
          let a2 := a ++ [(var, value)]
          if consistent p a2 then backtrack p d fuel a2 else none)

/-- The preprocessing prefix of `solve`: node consistency on the initial
domains, then `ac3()` with the default worklist. -/
def preprocess (p : Puzzle) (fuel : Nat) : Option (Domains × Bool) :=
  ac3 p (enforce_node_consistency p (initialDomains p)) fuel none

/-- `solve`: preprocessing, then `backtrack(dict())`.  The boolean result of
`ac3` is discarded, as in the source. -/
def solve (p : Puzzle) (fuel : Nat) : Option (Option Assignment) :=
  (preprocess p fuel).map (fun r => backtrack p r.1 fuel [])

/-- `solve` instrumented with one observation: whether the backtracking
search was invoked.  The source calls `self.backtrack(dict())`
unconditionally, so the flag is true on every completed run. -/
def solveInstr (p : Puzzle) (fuel : Nat) : Option (Option Assignment × Bool) :=
  (preprocess p fuel).map (fun r => (backtrack p r.1 fuel [], true))

/-- `backtrack` with the domain store threaded through every call, as the
mutable `self.domains` is in the source: each step receives the store and
passes on whatever store its callees left behind. -/
def backtrackS (p : Puzzle) : Nat → Domains → Assignment → Option Assignment × Domains
  | 0, d, _ => (none, d)
  | fuel + 1, d, a =>
    if assignment_complete p a then (some a, d)
    else
      match select_unassigned_variable p d a with
      | none => (none, d)
      | some var =>
        (order_domain_values p d a var).foldl (fun acc value =>
          match acc with
          | (some r, dd) => (some r, dd)
          | (none, dd) =>
            let a2 := a ++ [(var, value)]
            if consistent p a2 then backtrackS p fuel dd a2 else (none, dd))
          (none, d)

/-- Running `ac3` with the default worklist twice in a row. -/
def ac3Twice (p : Puzzle) (d : Domains) (fuel : Nat) : Option (Domains × Bool) :=
  match ac3 p d fuel none with
  | none => none
  | some r => ac3 p r.1 fuel none

/-- `x` is arc-consistent relative to `y`: every candidate of `x` has a
supporting candidate of `y` at the overlap offsets. -/
def ArcCons (p : Puzzle) (d : Domains) (x y : Var) : Prop :=
  ∀ i j, p.overlaps x y = some (i, j) →
    ∀ xw ∈ d x, ∃ yw ∈ d y, xw.getD i '?' = yw.getD j '?'

/-- A complete assignment: every variable mapped to a word of its length. -/
def CompleteAsg (p : Puzzle) (a : Assignment) : Prop :=
  ∀ v ∈ p.vars, ∃ w, assignLookup a v = some w ∧ w.length = p.length v

/-- A consistent assignment in the spec's sense: no duplicate word across two
distinct variables, all lengths match, all overlap characters agree. -/
def ConsistentAsg (p : Puzzle) (a : Assignment) : Prop :=
  (∀ x y wx wy, assignLookup a x = some wx → assignLookup a y = some wy →
    x ≠ y → wx ≠ wy) ∧
  (∀ v w, assignLookup a v = some w → w.length = p.length v) ∧
  (∀ x ∈ p.vars, ∀ y ∈ p.vars, ∀ i j wx wy, p.overlaps x y = some (i, j) →
    assignLookup a x = some wx → assignLookup a y = some wy →
    wx.getD i '?' = wy.getD j '?')

/-- A complete consistent assignment over the domain store `d`, presented as
a choice of one word per variable. -/
def Solution (p : Puzzle) (d : Domains) (f : Var → Word) : Prop :=
  (∀ v ∈ p.vars, f v ∈ d v) ∧
  (∀ v ∈ p.vars, (f v).length = p.length v) ∧
  (∀ u ∈ p.vars, ∀ v ∈ p.vars, u ≠ v → f u ≠ f v) ∧
  (∀ x ∈ p.vars, ∀ y ∈ p.vars, ∀ i j, p.overlaps x y = some (i, j) →
    (f x).getD i '?' = (f y).getD j '?')

/-- The number of unassigned neighbors of `v`, the degree notion the claim
about variable selection prescribes. -/
def unassigned_degree (p : Puzzle) (a : Assignment) (v : Var) : Nat :=
  ((neighbors p v).filter (fun u => (assignLookup a u).isNone)).length

/-- An arc the `ac3` worklist may hold: an ordered pair of distinct puzzle
variables with an overlap. -/
def ValidArc (p : Puzzle) (e : Var × Var) : Prop :=
  e.1 ∈ p.vars ∧ e.2 ∈ p.vars ∧ e.1 ≠ e.2 ∧ (p.overlaps e.1 e.2).isSome

/-! Concrete words and puzzles used by witnesses and counterexamples. -/

def catW : Word := ['c', 'a', 't']

def dogW : Word := ['d', 'o', 'g']

def artW : Word := ['a', 'r', 't']

def tarW : Word := ['t', 'a', 'r']

def aW : Word := ['a']

def bW : Word := ['b']

def bcW : Word := ['b', 'c']

def abW : Word := ['a', 'b']

/-- A symmetric overlap table holding the single crossing `{a, b}` with
offsets `(i, j)` on the ordered pair `(a, b)`. -/
def pairOv (a b : Var) (i j : Nat) : Var → Var → Option (Nat × Nat) := fun x y =>
  if x = a ∧ y = b then some (i, j)
  else if x = b ∧ y = a then some (j, i)
  else none

/-- One slot of length 3, vocabulary `{cat, dog}`, no overlaps. -/
def P1 : Puzzle :=
  { vars := [0], length := fun _ => 3, words := [catW, dogW], overlaps := fun _ _ => none }

def d1pre : Domains := enforce_node_consistency P1 (initialDomains P1)

/-- Two crossing slots of length 3: character 1 of slot 0 meets character 0
of slot 1; vocabulary `{cat, art, tar}`. -/
def P2 : Puzzle :=
  { vars := [0, 1], length := fun _ => 3, words := [catW, artW, tarW],
    overlaps := pairOv 0 1 1 0 }

def d2pre : Domains := enforce_node_consistency P2 (initialDomains P2)

/-- The domain store `ac3` leaves behind on `P2`: the worklist pops `(1, 0)`
then `(0, 1)`, each revision pruning as recorded here. -/
def d2post : Domains := (revise P2 (revise P2 d2pre 1 0).1 0 1).1

/-- Two crossing slots of length 1 over the one-word vocabulary `{a}`:
`ac3` completes with no pruning. -/
def P3 : Puzzle :=
  { vars := [0, 1], length := fun _ => 1, words := [aW], overlaps := pairOv 0 1 0 0 }

def d3pre : Domains := enforce_node_consistency P3 (initialDomains P3)

def d3post : Domains := (revise P3 (revise P3 d3pre 1 0).1 0 1).1

/-- The store a second `ac3` run on `P3` leaves behind (both revisions keep
everything). -/
def d3post2 : Domains := (revise P3 (revise P3 d3post 1 0).1 0 1).1

/-- Two variables that do not overlap at all, with nonempty domains. -/
def P4 : Puzzle :=
  { vars := [0, 1], length := fun _ => 1, words := [aW, bW], overlaps := fun _ _ => none }

def d4 : Domains := fun v => if v = 0 then [aW] else [bW]

/-- One slot of length 1 whose vocabulary holds only the length-2 word `ab`:
node consistency empties the domain. -/
def P6 : Puzzle :=
  { vars := [0], length := fun _ => 1, words := [abW], overlaps := fun _ _ => none }

def d6pre : Domains := enforce_node_consistency P6 (initialDomains P6)

/-- The everywhere-empty domain store. -/
def dempty : Domains := fun _ => []

/-- Five length-1 slots; slot 0 crosses slots 2 and 3, slot 1 crosses
slot 4. -/
def ov7 : Var → Var → Option (Nat × Nat) := fun x y =>
  match pairOv 0 2 0 0 x y with
  | some q => some q
  | none =>
    match pairOv 0 3 0 0 x y with
    | some q => some q
    | none => pairOv 1 4 0 0 x y

def P7 : Puzzle :=
  { vars := [0, 1, 2, 3, 4], length := fun _ => 1, words := [aW, bW], overlaps := ov7 }

def d7 : Domains := fun v => if v = 4 then [aW, bW] else [aW]

def a7 : Assignment := [(2, aW), (3, bW)]

/-- A crossing between a length-1 slot and a length-2 slot whose words
disagree at the shared cell: the first `ac3` run fails part-way. -/
def P8 : Puzzle :=
  { vars := [0, 1], length := fun v => if v = 0 then 1 else 2, words := [aW, bcW],
    overlaps := pairOv 0 1 0 0 }

def d8pre : Domains := enforce_node_consistency P8 (initialDomains P8)

/-! ### Assignment-lookup lemmas -/

theorem assignLookup_cons (e : Var × Word) (t : Assignment) (v : Var) :
    assignLookup (e :: t) v = if e.1 = v then some e.2 else assignLookup t v := by
  by_cases h : e.1 = v
  · simp [assignLookup, List.find?_cons_of_pos, h]
  · simp [assignLookup, List.find?_cons_of_neg, h]

theorem assignLookup_eq_none_iff (a : Assignment) (v : Var) :
    assignLookup a v = none ↔ v ∉ a.map Prod.fst := by
  induction a with
  | nil => simp [assignLookup]
  | cons e t ih =>
    rw [assignLookup_cons, List.map_cons, List.mem_cons]
    by_cases h : e.1 = v
    · simp [h]
    · rw [if_neg h, ih]
      constructor
      · intro hn hor
        rcases hor with he | hm
        · exact h he.symm
        · exact hn hm
      · intro hn hm
        exact hn (Or.inr hm)

theorem mem_of_assignLookup_eq_some {a : Assignment} {v : Var} {w : Word}
    (h : assignLookup a v = some w) : (v, w) ∈ a := by
  unfold assignLookup at h
  cases hf : a.find? (fun e => e.1 == v) with
  | none => rw [hf] at h; simp at h
  | some e =>
    rw [hf] at h
    have h1 : e.1 = v := by simpa using List.find?_some hf
    have h2 : e.2 = w := by simpa using h
    have he : e = (v, w) := Prod.ext h1 h2
    exact he ▸ List.mem_of_find?_eq_some hf

theorem assignLookup_eq_some_of_mem {a : Assignment} {v : Var} {w : Word}
    (hk : (a.map Prod.fst).Nodup) (h : (v, w) ∈ a) : assignLookup a v = some w := by
  induction a with
  | nil => simp at h
  | cons e t ih =>
    rw [assignLookup_cons]
    simp only [List.map_cons, List.nodup_cons] at hk
    rcases List.mem_cons.mp h with h1 | h1
    · subst h1; simp
    · have hv : v ∈ t.map Prod.fst := List.mem_map_of_mem Prod.fst h1
      have : e.1 ≠ v := by
        intro he
        exact hk.1 (he ▸ hv)
      rw [if_neg this]
      exact ih hk.2 h1

theorem assignLookup_append (a b : Assignment) (v : Var) :
    assignLookup (a ++ b) v =
      match assignLookup a v with
      | some w => some w
      | none => assignLookup b v := by
  induction a with
  | nil => simp [assignLookup]
  | cons e t ih =>
    rw [List.cons_append, assignLookup_cons, assignLookup_cons]
    by_cases h : e.1 = v <;> simp [h, ih]

theorem assignLookup_concat_self {a : Assignment} {v : Var} (w : Word)
    (h : assignLookup a v = none) : assignLookup (a ++ [(v, w)]) v = some w := by
  rw [assignLookup_append, h]
  simp [assignLookup_cons]

theorem assignLookup_concat_ne (a : Assignment) {u v : Var} (w : Word) (h : u ≠ v) :
    assignLookup (a ++ [(v, w)]) u = assignLookup a u := by
  rw [assignLookup_append]
  cases hx : assignLookup a u <;> simp [assignLookup_cons, assignLookup, h.symm]

/-! ### findSome? lemmas -/

theorem findSome?_eq_none_iff {α β : Type} {l : List α} {f : α → Option β} :
    l.findSome? f = none ↔ ∀ x ∈ l, f x = none := by
  induction l with
  | nil => simp
  | cons a t ih =>
    rw [List.findSome?_cons]
    cases h : f a <;> simp [h, ih]

theorem exists_of_findSome?_eq_some {α β : Type} {l : List α} {f : α → Option β}
    {b : β} (h : l.findSome? f = some b) : ∃ x ∈ l, f x = some b := by
  induction l with
  | nil => simp at h
  | cons a t ih =>
    rw [List.findSome?_cons] at h
    cases ha : f a with
    | some c =>
      rw [ha] at h
      exact ⟨a, List.mem_cons_self a t, by simp at h; rw [ha, h]⟩
    | none =>
      rw [ha] at h
      obtain ⟨x, hx, hfx⟩ := ih h
      exact ⟨x, List.mem_cons_of_mem _ hx, hfx⟩

/-! ### Sorting lemmas -/

theorem mem_insertSortedBy (key : Word → Nat) (w x : Word) (l : List Word) :
    x ∈ insertSortedBy key w l ↔ x = w ∨ x ∈ l := by
  induction l with
  | nil => simp [insertSortedBy]
  | cons a t ih =>
    unfold insertSortedBy
    split
    · simp [List.mem_cons]
    · simp only [List.mem_cons, ih]
      tauto

theorem mem_sortByKey (key : Word → Nat) (l : List Word) (x : Word) :
    x ∈ sortByKey key l ↔ x ∈ l := by
  induction l with
  | nil => simp [sortByKey]
  | cons a t ih =>
    show x ∈ insertSortedBy key a (sortByKey key t) ↔ _
    rw [mem_insertSortedBy, ih]
    simp [List.mem_cons]

theorem mem_order_domain_values (p : Puzzle) (d : Domains) (a : Assignment)
    (var : Var) (w : Word) : w ∈ order_domain_values p d a var ↔ w ∈ d var :=
  mem_sortByKey _ _ _

/-! ### Nodup counting lemmas -/

theorem nodup_length_le {l m : List Var} (h : l.Nodup) (hsub : l ⊆ m) :
    l.length ≤ m.length :=
  (List.subperm_of_subset h hsub).length_le

theorem filter_ne_length {l : List Var} {x : Var} (h : l.Nodup) (hx : x ∈ l) :
    (l.filter (fun v => ! (v == x))).length + 1 = l.length := by
  induction l with
  | nil => simp at hx
  | cons b t ih =>
    simp only [List.nodup_cons] at h
    rcases List.mem_cons.mp hx with h1 | h1
    · subst h1
      have hft : t.filter (fun v => ! (v == x)) = t := by
        apply List.filter_eq_self.mpr
        intro v hv
        have hvx : v ≠ x := fun he => h.1 (he ▸ hv)
        simp [hvx]
      simp only [List.filter_cons]
      rw [if_neg (by simp), hft]
      simp
    · have hne : b ≠ x := fun he => h.1 (by rw [he]; exact h1)
      simp only [List.filter_cons]
      rw [if_pos (by simp [hne])]
      simp only [List.length_cons]
      have := ih h.2 h1
      omega


/-! ### revise lemmas -/

theorem revise_fst_self (p : Puzzle) (d : Domains) (x y : Var) :
    (revise p d x y).1 x = (d x).filter (fun xw => hasCorresponding p x y (d y) xw) := by
  simp [revise, Function.update_same]

theorem revise_fst_ne (p : Puzzle) (d : Domains) (x y : Var) {z : Var} (h : z ≠ x) :
    (revise p d x y).1 z = d z := by
  simp [revise, Function.update_noteq h]

theorem revise_fst_subset (p : Puzzle) (d : Domains) (x y : Var) :
    (revise p d x y).1 x ⊆ d x := by
  rw [revise_fst_self]
  exact fun w hw => (List.mem_filter.mp hw).1

theorem hasCorresponding_eq_true_iff {p : Puzzle} {x y : Var} {i j : Nat}
    (hov : p.overlaps x y = some (i, j)) (L : List Word) (xw : Word) :
    hasCorresponding p x y L xw = true ↔ ∃ yw ∈ L, xw.getD i '?' = yw.getD j '?' := by
  simp [hasCorresponding, hov, List.any_eq_true]

theorem revise_snd_eq_false_iff {p : Puzzle} {d : Domains} {x y : Var} :
    (revise p d x y).2 = false ↔
      ∀ xw ∈ d x, hasCorresponding p x y (d y) xw = true := by
  simp [revise]

theorem revise_fst_eq_of_snd_false {p : Puzzle} {d : Domains} {x y : Var}
    (h : (revise p d x y).2 = false) : (revise p d x y).1 = d := by
  have hall := revise_snd_eq_false_iff.mp h
  have hfe : (d x).filter (fun xw => hasCorresponding p x y (d y) xw) = d x :=
    List.filter_eq_self.mpr hall
  show Function.update d x _ = d
  rw [hfe]
  exact Function.update_eq_self x d

theorem arcCons_of_revise_snd_false {p : Puzzle} {d : Domains} {x y : Var}
    (h : (revise p d x y).2 = false) : ArcCons p d x y := by
  intro i j hov xw hxw
  exact (hasCorresponding_eq_true_iff hov _ _).mp (revise_snd_eq_false_iff.mp h xw hxw)

theorem arcCons_revise_post {p : Puzzle} {d : Domains} {x y : Var} (hxy : x ≠ y) :
    ArcCons p ((revise p d x y).1) x y := by
  intro i j hov xw hxw
  rw [revise_fst_self] at hxw
  rw [revise_fst_ne p d x y (Ne.symm hxy)]
  exact (hasCorresponding_eq_true_iff hov _ _).mp (List.mem_filter.mp hxw).2

theorem arcCons_mono {p : Puzzle} {d d2 : Domains} {x y : Var}
    (h : ArcCons p d x y) (hx : d2 x ⊆ d x) (hy : d2 y = d y) : ArcCons p d2 x y := by
  intro i j hov xw hxw
  rw [hy]
  exact h i j hov xw (hx hxw)

theorem arcCons_back_of_revise {p : Puzzle} {d : Domains} {x y : Var} (hWF : WF p)
    (hx : x ∈ p.vars) (hy : y ∈ p.vars) (hxy : x ≠ y) (h : ArcCons p d y x) :
    ArcCons p ((revise p d x y).1) y x := by
  intro i j hov yw hyw
  rw [revise_fst_ne p d x y (Ne.symm hxy)] at hyw
  have hsymm := hWF.symm x hx y hy
  rw [hov] at hsymm
  obtain ⟨q, hq, hswap⟩ := Option.map_eq_some'.mp hsymm.symm
  obtain ⟨q1, q2⟩ := q
  simp only [Prod.mk.injEq] at hswap
  obtain ⟨xw, hxw, hsupp⟩ := h i j hov yw hyw
  rw [revise_fst_self]
  refine ⟨xw, List.mem_filter.mpr ⟨hxw, ?_⟩, hsupp⟩
  rw [hasCorresponding_eq_true_iff hq (d y) xw]
  exact ⟨yw, hyw, by rw [hswap.1, hswap.2]; exact hsupp.symm⟩

/-! ### Variable-selection lemmas -/

theorem betterVar_irrefl (p : Puzzle) (d : Domains) (v : Var) :
    betterVar p d v v = false := by
  simp [betterVar]

theorem betterVar_trans {p : Puzzle} {d : Domains} {a b c : Var}
    (h1 : betterVar p d a b = true) (h2 : betterVar p d b c = true) :
    betterVar p d a c = true := by
  simp only [betterVar, decide_eq_true_eq] at h1 h2 ⊢
  omega

theorem betterVar_escape {p : Puzzle} {d : Domains} {a b c : Var}
    (h1 : betterVar p d a c = true) (h2 : betterVar p d a b = false) :
    betterVar p d b c = true := by
  simp only [betterVar, decide_eq_true_eq, decide_eq_false_iff_not] at h1 h2 ⊢
  omega

theorem foldl_betterVar_mem (p : Puzzle) (d : Domains) (us : List Var) (u : Var) :
    us.foldl (fun best v => if betterVar p d v best then v else best) u ∈ u :: us := by
  induction us generalizing u with
  | nil => simp
  | cons b t ih =>
    simp only [List.foldl_cons]
    rcases List.mem_cons.mp (ih (if betterVar p d b u then b else u)) with h | h
    · rw [h]
      by_cases hb : betterVar p d b u = true
      · rw [if_pos hb]
        exact List.mem_cons_of_mem _ (List.mem_cons_self _ _)
      · rw [if_neg hb]
        exact List.mem_cons_self _ _
    · exact List.mem_cons_of_mem _ (List.mem_cons_of_mem _ h)

theorem foldl_betterVar_min (p : Puzzle) (d : Domains) (us : List Var) (u : Var) :
    ∀ w ∈ u :: us,
      betterVar p d w (us.foldl (fun best v => if betterVar p d v best then v else best) u)
        = false := by
  induction us generalizing u with
  | nil =>
    intro w hw
    simp only [List.foldl_nil]
    rcases List.mem_cons.mp hw with h1 | h1
    · rw [h1]
      exact betterVar_irrefl p d u
    · exact absurd h1 (List.not_mem_nil w)
  | cons b t ih =>
    intro w hw
    simp only [List.foldl_cons]
    set u2 := if betterVar p d b u then b else u with hu2
    rcases List.mem_cons.mp hw with h1 | h1
    · subst h1
      by_cases hb : betterVar p d b w = true
      · cases hres : betterVar p d w (t.foldl (fun best v => if betterVar p d v best then v else best) u2) with
        | false => rfl
        | true =>
          exfalso
          have hb2 := betterVar_trans hb hres
          have hfalse := ih u2 b (by rw [hu2, if_pos hb]; exact List.mem_cons_self _ _)
          rw [hfalse] at hb2
          exact Bool.false_ne_true hb2
      · have hu2w : u2 = w := by rw [hu2, if_neg hb]
        rw [← hu2w]
        exact ih u2 u2 (List.mem_cons_self _ _)
    · rcases List.mem_cons.mp h1 with h2 | h2
      · subst h2
        by_cases hb : betterVar p d w u = true
        · exact ih u2 w (by rw [hu2, if_pos hb]; exact List.mem_cons_self _ _)
        · cases hres : betterVar p d w (t.foldl (fun best v => if betterVar p d v best then v else best) u2) with
          | false => rfl
          | true =>
            exfalso
            have hbu : betterVar p d w u = false := Bool.eq_false_iff.mpr hb
            have hu2u : u2 = u := by rw [hu2, if_neg hb]
            rw [hu2u] at hres
            have hesc := betterVar_escape hres hbu
            have hfalse := ih u u (List.mem_cons_self _ _)
            rw [hfalse] at hesc
            exact Bool.false_ne_true hesc
      · exact ih u2 w (List.mem_cons_of_mem _ h2)

theorem select_spec {p : Puzzle} {d : Domains} {a : Assignment} {r : Var}
    (h : select_unassigned_variable p d a = some r) :
    r ∈ p.vars.filter (fun v => (assignLookup a v).isNone) ∧
    ∀ u ∈ p.vars.filter (fun v => (assignLookup a v).isNone), betterVar p d u r = false := by
  unfold select_unassigned_variable at h
  cases hu : p.vars.filter (fun v => (assignLookup a v).isNone) with
  | nil => rw [hu] at h; exact absurd h (by simp)
  | cons u us =>
    rw [hu] at h
    have hr : us.foldl (fun best v => if betterVar p d v best then v else best) u = r := by
      simpa using h
    constructor
    · rw [← hr]
      exact foldl_betterVar_mem p d us u
    · intro w hw
      rw [← hr]
      exact foldl_betterVar_min p d us u w hw

theorem select_mem_vars {p : Puzzle} {d : Domains} {a : Assignment} {r : Var}
    (h : select_unassigned_variable p d a = some r) : r ∈ p.vars :=
  (List.mem_filter.mp (select_spec h).1).1

theorem select_unassigned {p : Puzzle} {d : Domains} {a : Assignment} {r : Var}
    (h : select_unassigned_variable p d a = some r) : assignLookup a r = none := by
  have := (List.mem_filter.mp (select_spec h).1).2
  exact Option.isNone_iff_eq_none.mp this

theorem select_min_size {p : Puzzle} {d : Domains} {a : Assignment} {r : Var}
    (h : select_unassigned_variable p d a = some r) :
    ∀ u ∈ p.vars, assignLookup a u = none → (d r).length ≤ (d u).length := by
  intro u hu hun
  have := (select_spec h).2 u (List.mem_filter.mpr ⟨hu, by simp [hun]⟩)
  simp only [betterVar, decide_eq_false_iff_not] at this
  omega

theorem select_max_degree {p : Puzzle} {d : Domains} {a : Assignment} {r : Var}
    (h : select_unassigned_variable p d a = some r) :
    ∀ u ∈ p.vars, assignLookup a u = none →
      (d u).length = (d r).length → degree p u ≤ degree p r := by
  intro u hu hun hlen
  have := (select_spec h).2 u (List.mem_filter.mpr ⟨hu, by simp [hun]⟩)
  simp only [betterVar, decide_eq_false_iff_not] at this
  omega

theorem select_isSome_of_unassigned {p : Puzzle} {d : Domains} {a : Assignment}
    (h : p.vars.filter (fun v => (assignLookup a v).isNone) ≠ []) :
    ∃ r, select_unassigned_variable p d a = some r := by
  unfold select_unassigned_variable
  cases hu : p.vars.filter (fun v => (assignLookup a v).isNone) with
  | nil => exact absurd hu h
  | cons u us => exact ⟨_, rfl⟩

/-! ### Search never writes the domain store -/

theorem foldl_const_some {α β δ : Type} (l : List α) (b : β) (dd : δ)
    (step : Option β × δ → α → Option β × δ)
    (hsome : ∀ r dd2 v, step (some r, dd2) v = (some r, dd2)) :
    l.foldl step (some b, dd) = (some b, dd) := by
  induction l with
  | nil => rfl
  | cons c s ih => rw [List.foldl_cons, hsome]; exact ih

theorem foldl_carry_none {α β δ : Type} (l : List α) (d : δ) (f : α → Option β)
    (step : Option β × δ → α → Option β × δ)
    (hsome : ∀ r dd v, step (some r, dd) v = (some r, dd))
    (hnone : ∀ v, step (none, d) v = (f v, d)) :
    l.foldl step (none, d) = (l.findSome? f, d) := by
  induction l with
  | nil => simp
  | cons c t ih =>
    rw [List.foldl_cons, hnone c, List.findSome?_cons]
    cases hc : f c with
    | none => exact ih
    | some b => exact foldl_const_some t b d step hsome

theorem backtrackS_eq (p : Puzzle) (fuel : Nat) (d : Domains) (a : Assignment) :
    backtrackS p fuel d a = (backtrack p d fuel a, d) := by
  induction fuel generalizing a with
  | zero => rfl
  | succ fuel ih =>
    simp only [backtrackS, backtrack]
    by_cases hc : assignment_complete p a = true
    · simp [hc]
    · simp only [hc, Bool.false_eq_true, if_false]
      cases hs : select_unassigned_variable p d a with
      | none => rfl
      | some var =>
        apply foldl_carry_none
        · intro r dd v
          rfl
        · intro v
          show (if consistent p (a ++ [(var, v)]) then backtrackS p fuel d (a ++ [(var, v)])
                else (none, d)) = _
          by_cases hcv : consistent p (a ++ [(var, v)]) = true
          · simp only [hcv, if_true, ih]
          · simp only [hcv, Bool.false_eq_true, if_false]

/-! ### Characterization of the consistency predicate -/

theorem dedup_length_eq_iff {l : List Word} :
    (l.dedup.length == l.length) = true ↔ l.Nodup := by
  rw [beq_iff_eq]
  constructor
  · intro h
    exact List.dedup_eq_self.mp ((List.dedup_sublist l).eq_of_length h)
  · intro h
    rw [List.dedup_eq_self.mpr h]

theorem values_nodup_iff {a : Assignment} (hk : (a.map Prod.fst).Nodup) :
    (a.map Prod.snd).Nodup ↔
      ∀ x y wx wy, assignLookup a x = some wx → assignLookup a y = some wy →
        x ≠ y → wx ≠ wy := by
  have ha : a.Nodup := hk.of_map Prod.fst
  rw [List.nodup_map_iff_inj_on ha]
  constructor
  · intro hinj x y wx wy hx hy hxy hww
    have hmx := mem_of_assignLookup_eq_some hx
    have hmy := mem_of_assignLookup_eq_some hy
    have heq := hinj (x, wx) hmx (y, wy) hmy (by simpa using hww)
    exact hxy (congrArg Prod.fst heq)
  · intro hpair e1 he1 e2 he2 hsnd
    have hl1 : assignLookup a e1.1 = some e1.2 := assignLookup_eq_some_of_mem hk he1
    have hl2 : assignLookup a e2.1 = some e2.2 := assignLookup_eq_some_of_mem hk he2
    by_contra hne
    have hfst : e1.1 ≠ e2.1 := fun hf => hne (Prod.ext hf hsnd)
    exact hpair e1.1 e2.1 e1.2 e2.2 hl1 hl2 hfst hsnd

theorem consistent_eq_true_iff {p : Puzzle} {a : Assignment}
    (hk : (a.map Prod.fst).Nodup) :
    consistent p a = true ↔ ConsistentAsg p a := by
  have h1 : ((a.map Prod.snd).dedup.length == a.length) = true ↔
      (∀ x y wx wy, assignLookup a x = some wx → assignLookup a y = some wy →
        x ≠ y → wx ≠ wy) := by
    rw [show a.length = (a.map Prod.snd).length from (List.length_map a Prod.snd).symm]
    rw [dedup_length_eq_iff]
    exact values_nodup_iff hk
  have h2 : (a.all (fun e => e.2.length == p.length e.1)) = true ↔
      (∀ v w, assignLookup a v = some w → w.length = p.length v) := by
    rw [List.all_eq_true]
    constructor
    · intro h v w hvw
      simpa using h (v, w) (mem_of_assignLookup_eq_some hvw)
    · intro h e he
      simpa using h e.1 e.2 (assignLookup_eq_some_of_mem hk he)
  have h3 : (p.vars.all (fun x => p.vars.all (fun y =>
      match p.overlaps x y with
      | none => true
      | some (i, j) =>
        match assignLookup a x, assignLookup a y with
        | some wx, some wy => wx.getD i '?' == wy.getD j '?'
        | _, _ => true))) = true ↔
      (∀ x ∈ p.vars, ∀ y ∈ p.vars, ∀ i j wx wy, p.overlaps x y = some (i, j) →
        assignLookup a x = some wx → assignLookup a y = some wy →
        wx.getD i '?' = wy.getD j '?') := by
    rw [List.all_eq_true]
    constructor
    · intro h x hx y hy i j wx wy hov hlx hly
      have hxall := h x hx
      rw [List.all_eq_true] at hxall
      have hone := hxall y hy
      rw [hov, hlx, hly] at hone
      simpa using hone
    · intro h x hx
      rw [List.all_eq_true]
      intro y hy
      cases hov : p.overlaps x y with
      | none => rfl
      | some q =>
        obtain ⟨i, j⟩ := q
        cases hlx : assignLookup a x with
        | none => rfl
        | some wx =>
          cases hly : assignLookup a y with
          | none => rfl
          | some wy =>
            exact beq_iff_eq.mpr (h x hx y hy i j wx wy hov hlx hly)
  unfold consistent ConsistentAsg
  rw [Bool.and_eq_true, Bool.and_eq_true, h1, h2, h3]
  exact and_assoc

theorem consistent_nil (p : Puzzle) : consistent p [] = true := by
  rw [consistent_eq_true_iff (by simp)]
  refine ⟨?_, ?_, ?_⟩
  · intro x y wx wy hx
    simp [assignLookup] at hx
  · intro v w hv
    simp [assignLookup] at hv
  · intro x _ y _ i j wx wy _ hx
    simp [assignLookup] at hx

/-! ### Characterization of assignment completeness -/

theorem completeAsg_of_assignment_complete {p : Puzzle} {a : Assignment}
    (h : assignment_complete p a = true) : CompleteAsg p a := by
  unfold assignment_complete at h
  rw [Bool.and_eq_true, List.all_eq_true] at h
  intro v hv
  have hone := h.2 v hv
  cases hl : assignLookup a v with
  | none => rw [hl] at hone; simp at hone
  | some w =>
    rw [hl] at hone
    exact ⟨w, rfl, by simpa using hone⟩

theorem assignment_complete_of_all_assigned {p : Puzzle} {a : Assignment}
    (hWF : WF p) (hk : (a.map Prod.fst).Nodup)
    (hsub : ∀ v ∈ a.map Prod.fst, v ∈ p.vars)
    (hall : ∀ v ∈ p.vars, ∃ w, assignLookup a v = some w ∧ w.length = p.length v) :
    assignment_complete p a = true := by
  unfold assignment_complete
  rw [Bool.and_eq_true, List.all_eq_true]
  constructor
  · rw [beq_iff_eq]
    have hlen1 : (a.map Prod.fst).length ≤ p.vars.length := nodup_length_le hk hsub
    have hlen2 : p.vars.length ≤ (a.map Prod.fst).length := by
      apply nodup_length_le hWF.nodupVars
      intro v hv
      obtain ⟨w, hw, _⟩ := hall v hv
      exact List.mem_map_of_mem Prod.fst (mem_of_assignLookup_eq_some hw)
    have hmap := List.length_map a Prod.fst
    omega
  · intro v hv
    obtain ⟨w, hw, hlen⟩ := hall v hv
    rw [hw]
    simpa using hlen

/-! ### Backtracking from an empty domain -/

theorem backtrack_none_of_empty_domain {p : Puzzle} {d : Domains}
    (hempty : ∃ v ∈ p.vars, d v = []) (fuel : Nat) :
    backtrack p d fuel [] = none := by
  obtain ⟨v, hv, hdv⟩ := hempty
  cases fuel with
  | zero => rfl
  | succ fuel =>
    have hvars : p.vars ≠ [] := by
      intro h
      rw [h] at hv
      exact absurd hv (List.not_mem_nil v)
    have hcomp : assignment_complete p [] = false := by
      unfold assignment_complete
      cases hp : p.vars with
      | nil => exact absurd hp hvars
      | cons b t => simp
    have hfilter : p.vars.filter (fun u => (assignLookup [] u).isNone) = p.vars :=
      List.filter_eq_self.mpr (fun u _ => by simp [assignLookup])
    obtain ⟨r, hr⟩ := select_isSome_of_unassigned (p := p) (d := d) (a := [])
      (by rw [hfilter]; exact hvars)
    have hrsize := select_min_size hr v hv (by simp [assignLookup])
    rw [hdv] at hrsize
    have hdr : d r = [] := List.length_eq_zero.mp (Nat.le_zero.mp (by simpa using hrsize))
    have hord : order_domain_values p d [] r = [] := by
      unfold order_domain_values
      rw [hdr]
      rfl
    simp only [backtrack, hcomp, Bool.false_eq_true, if_false, hr, hord,
      List.findSome?_nil]

/-! ### The AC-3 worklist loop -/

theorem ac3Loop_cons (p : Puzzle) (fuel : Nat) (d : Domains) (x y : Var)
    (rest : List (Var × Var)) :
    ac3Loop p (fuel + 1) d ((x, y) :: rest) =
      if (revise p d x y).2 then
        (if ((revise p d x y).1 x).isEmpty then some ((revise p d x y).1, false)
         else ac3Loop p fuel (revise p d x y).1 (pushArcs p x y ++ rest))
      else ac3Loop p fuel (revise p d x y).1 rest := rfl

theorem pushArcs_valid {p : Puzzle} (hWF : WF p) {x : Var} (hx : x ∈ p.vars)
    (y : Var) : ∀ e ∈ pushArcs p x y, ValidArc p e := by
  intro e he
  unfold pushArcs at he
  rw [List.mem_reverse] at he
  obtain ⟨z, hz, rfl⟩ := List.mem_map.mp he
  have hzf := List.mem_filter.mp hz
  have hc := hzf.2
  simp only [Bool.and_eq_true, decide_eq_true_eq] at hc
  refine ⟨hzf.1, hx, hc.1.1, ?_⟩
  rw [hWF.symm x hx z hzf.1]
  obtain ⟨q, hq⟩ := Option.isSome_iff_exists.mp hc.2
  rw [hq]
  rfl

theorem defaultArcs_valid (p : Puzzle) : ∀ e ∈ (defaultArcs p).reverse, ValidArc p e := by
  intro e he
  rw [List.mem_reverse] at he
  unfold defaultArcs at he
  rw [List.mem_flatMap] at he
  obtain ⟨x, hx, he2⟩ := he
  obtain ⟨y, hy, rfl⟩ := List.mem_map.mp he2
  have hyf := List.mem_filter.mp hy
  have hc := hyf.2
  simp only [Bool.and_eq_true, decide_eq_true_eq] at hc
  exact ⟨hx, hyf.1, hc.1, hc.2⟩

theorem mem_defaultArcs {p : Puzzle} {x y : Var} (hx : x ∈ p.vars) (hy : y ∈ p.vars)
    (hxy : x ≠ y) (hov : (p.overlaps x y).isSome = true) :
    (x, y) ∈ (defaultArcs p).reverse := by
  rw [List.mem_reverse]
  unfold defaultArcs
  rw [List.mem_flatMap]
  exact ⟨x, hx, List.mem_map.mpr ⟨y, List.mem_filter.mpr ⟨hy, by simp [hxy, hov]⟩, rfl⟩⟩

theorem ac3Loop_true_sound {p : Puzzle} (hWF : WF p) :
    ∀ (fuel : Nat) (d : Domains) (W : List (Var × Var)) (d2 : Domains),
      (∀ e ∈ W, ValidArc p e) →
      (∀ u ∈ p.vars, ∀ w ∈ p.vars, u ≠ w → (p.overlaps u w).isSome = true →
        (u, w) ∈ W ∨ ArcCons p d u w) →
      ac3Loop p fuel d W = some (d2, true) →
      ∀ u ∈ p.vars, ∀ w ∈ p.vars, ArcCons p d2 u w := by
  intro fuel
  induction fuel with
  | zero =>
    intro d W d2 _ _ hrun
    exact absurd hrun (by simp [ac3Loop])
  | succ fuel ih =>
    intro d W d2 hvalid hinv hrun
    cases W with
    | nil =>
      simp only [ac3Loop] at hrun
      have hd : d = d2 := (Prod.ext_iff.mp (Option.some.inj hrun)).1
      subst hd
      intro u hu w hw i j hov xw hxw
      have hne : u ≠ w := by
        intro he
        subst he
        rw [hWF.irrefl u hu] at hov
        exact Option.noConfusion hov
      rcases hinv u hu w hw hne (by rw [hov]; rfl) with hmem | hc
      · exact absurd hmem (List.not_mem_nil _)
      · exact hc i j hov xw hxw
    | cons e rest =>
      obtain ⟨x, y⟩ := e
      have hval := hvalid (x, y) (List.mem_cons_self _ _)
      have hx : x ∈ p.vars := hval.1
      have hy : y ∈ p.vars := hval.2.1
      have hxy : x ≠ y := hval.2.2.1
      rw [ac3Loop_cons] at hrun
      by_cases hrev : (revise p d x y).2 = true
      · rw [if_pos hrev] at hrun
        by_cases hemp : ((revise p d x y).1 x).isEmpty = true
        · rw [if_pos hemp] at hrun
          exact absurd (Prod.ext_iff.mp (Option.some.inj hrun)).2 (by simp)
        · rw [if_neg hemp] at hrun
          apply ih (revise p d x y).1 (pushArcs p x y ++ rest) d2 ?_ ?_ hrun
          · intro e2 he2
            rcases List.mem_append.mp he2 with h1 | h1
            · exact pushArcs_valid hWF hx y e2 h1
            · exact hvalid e2 (List.mem_cons_of_mem _ h1)
          · intro u hu w hw huw hovs
            by_cases hwx : w = x
            · subst hwx
              by_cases huy : u = y
              · subst huy
                rcases hinv u hu w hw huw hovs with hmem | hc
                · rcases List.mem_cons.mp hmem with heq | hr2
                  · exact absurd ((Prod.ext_iff.mp heq).1).symm (Ne.symm huw)
                  · exact Or.inl (List.mem_append.mpr (Or.inr hr2))
                · exact Or.inr (arcCons_back_of_revise hWF hx hy hxy hc)
              · left
                apply List.mem_append.mpr
                left
                unfold pushArcs
                rw [List.mem_reverse]
                apply List.mem_map.mpr
                refine ⟨u, List.mem_filter.mpr ⟨hu, ?_⟩, rfl⟩
                have hovxu : (p.overlaps w u).isSome = true := by
                  rw [hWF.symm u hu w hw]
                  obtain ⟨q, hq⟩ := Option.isSome_iff_exists.mp hovs
                  rw [hq]
                  rfl
                simp [huw, huy, hovxu]
            · rcases hinv u hu w hw huw hovs with hmem | hc
              · rcases List.mem_cons.mp hmem with heq | hr2
                · have hu2 : u = x := (Prod.ext_iff.mp heq).1
                  have hw2 : w = y := (Prod.ext_iff.mp heq).2
                  subst hu2
                  subst hw2
                  exact Or.inr (arcCons_revise_post hxy)
                · exact Or.inl (List.mem_append.mpr (Or.inr hr2))
              · right
                by_cases hux : u = x
                · subst hux
                  exact arcCons_mono hc (revise_fst_subset p d u y)
                    (revise_fst_ne p d u y hwx)
                · refine arcCons_mono hc ?_ (revise_fst_ne p d x y hwx)
                  intro z hz
                  rw [revise_fst_ne p d x y hux] at hz
                  exact hz
      · rw [if_neg hrev] at hrun
        have hrf : (revise p d x y).2 = false := Bool.eq_false_iff.mpr hrev
        rw [revise_fst_eq_of_snd_false hrf] at hrun
        apply ih d rest d2 ?_ ?_ hrun
        · intro e2 he2
          exact hvalid e2 (List.mem_cons_of_mem _ he2)
        · intro u hu w hw huw hovs
          rcases hinv u hu w hw huw hovs with hmem | hc
          · rcases List.mem_cons.mp hmem with heq | hr2
            · have hu2 : u = x := (Prod.ext_iff.mp heq).1
              have hw2 : w = y := (Prod.ext_iff.mp heq).2
              subst hu2
              subst hw2
              exact Or.inr (arcCons_of_revise_snd_false hrf)
            · exact Or.inl hr2
          · exact Or.inr hc

theorem ac3Loop_empty_report {p : Puzzle} (hWF : WF p) :
    ∀ (fuel : Nat) (d : Domains) (W : List (Var × Var)) (d2 : Domains) (b : Bool),
      (∀ e ∈ W, ValidArc p e) →
      (∀ v ∈ p.vars, d v ≠ []) →
      ac3Loop p fuel d W = some (d2, b) →
      (b = true → ∀ v ∈ p.vars, d2 v ≠ []) ∧ (b = false → ∃ v ∈ p.vars, d2 v = []) := by
  intro fuel
  induction fuel with
  | zero =>
    intro d W d2 b _ _ hrun
    exact absurd hrun (by simp [ac3Loop])
  | succ fuel ih =>
    intro d W d2 b hvalid hne hrun
    cases W with
    | nil =>
      simp only [ac3Loop] at hrun
      have hd : d = d2 := (Prod.ext_iff.mp (Option.some.inj hrun)).1
      have hb : true = b := (Prod.ext_iff.mp (Option.some.inj hrun)).2
      subst hd
      refine ⟨fun _ => hne, fun hf => ?_⟩
      rw [← hb] at hf
      exact absurd hf (by simp)
    | cons e rest =>
      obtain ⟨x, y⟩ := e
      have hx : x ∈ p.vars := (hvalid (x, y) (List.mem_cons_self _ _)).1
      rw [ac3Loop_cons] at hrun
      by_cases hrev : (revise p d x y).2 = true
      · rw [if_pos hrev] at hrun
        by_cases hemp : ((revise p d x y).1 x).isEmpty = true
        · rw [if_pos hemp] at hrun
          have hd : (revise p d x y).1 = d2 := (Prod.ext_iff.mp (Option.some.inj hrun)).1
          have hb : false = b := (Prod.ext_iff.mp (Option.some.inj hrun)).2
          constructor
          · intro ht
            rw [← hb] at ht
            exact absurd ht (by simp)
          · intro _
            refine ⟨x, hx, ?_⟩
            rw [← hd]
            exact List.isEmpty_iff.mp hemp
        · rw [if_neg hemp] at hrun
          apply ih (revise p d x y).1 (pushArcs p x y ++ rest) d2 b ?_ ?_ hrun
          · intro e2 he2
            rcases List.mem_append.mp he2 with h1 | h1
            · exact pushArcs_valid hWF hx y e2 h1
            · exact hvalid e2 (List.mem_cons_of_mem _ h1)
          · intro v hv
            by_cases hvx : v = x
            · subst hvx
              intro hcon
              exact hemp (by rw [hcon]; rfl)
            · rw [revise_fst_ne p d x y hvx]
              exact hne v hv
      · rw [if_neg hrev] at hrun
        have hrf : (revise p d x y).2 = false := Bool.eq_false_iff.mpr hrev
        rw [revise_fst_eq_of_snd_false hrf] at hrun
        exact ih d rest d2 b (fun e2 he2 => hvalid e2 (List.mem_cons_of_mem _ he2)) hne hrun

theorem ac3Loop_stable {p : Puzzle} :
    ∀ (fuel : Nat) (d : Domains) (W : List (Var × Var)) (r : Domains × Bool),
      (∀ e ∈ W, ValidArc p e) →
      (∀ u ∈ p.vars, ∀ w ∈ p.vars, ArcCons p d u w) →
      ac3Loop p fuel d W = some r → r = (d, true) := by
  intro fuel
  induction fuel with
  | zero =>
    intro d W r _ _ hrun
    exact absurd hrun (by simp [ac3Loop])
  | succ fuel ih =>
    intro d W r hvalid hcons hrun
    cases W with
    | nil =>
      simp only [ac3Loop] at hrun
      exact (Option.some.inj hrun).symm
    | cons e rest =>
      obtain ⟨x, y⟩ := e
      have hval := hvalid (x, y) (List.mem_cons_self _ _)
      obtain ⟨q, hov⟩ := Option.isSome_iff_exists.mp hval.2.2.2
      obtain ⟨i, j⟩ := q
      have hrf : (revise p d x y).2 = false := by
        apply revise_snd_eq_false_iff.mpr
        intro xw hxw
        rw [hasCorresponding_eq_true_iff hov (d y) xw]
        exact hcons x hval.1 y hval.2.1 i j hov xw hxw
      rw [ac3Loop_cons, if_neg (by simp [hrf]), revise_fst_eq_of_snd_false hrf] at hrun
      exact ih d rest r (fun e2 he2 => hvalid e2 (List.mem_cons_of_mem _ he2)) hcons hrun

/-! ### Backtracking search: soundness and completeness -/

theorem keys_concat_nodup {a : Assignment} {var : Var} (value : Word)
    (hk : (a.map Prod.fst).Nodup) (hvun : assignLookup a var = none) :
    ((a ++ [(var, value)]).map Prod.fst).Nodup := by
  rw [List.map_append]
  apply List.Nodup.append hk (by simp)
  intro v hv1 hv2
  simp only [List.map_cons, List.map_nil, List.mem_singleton] at hv2
  subst hv2
  rw [assignLookup_eq_none_iff] at hvun
  exact hvun hv1

theorem keys_concat_sub {p : Puzzle} {a : Assignment} {var : Var} (value : Word)
    (hsub : ∀ v ∈ a.map Prod.fst, v ∈ p.vars) (hvar : var ∈ p.vars) :
    ∀ v ∈ (a ++ [(var, value)]).map Prod.fst, v ∈ p.vars := by
  rw [List.map_append]
  intro v hv
  rcases List.mem_append.mp hv with h1 | h1
  · exact hsub v h1
  · simp only [List.map_cons, List.map_nil, List.mem_singleton] at h1
    subst h1
    exact hvar

theorem backtrack_sound {p : Puzzle} {d : Domains} :
    ∀ (fuel : Nat) (a r : Assignment),
      (a.map Prod.fst).Nodup →
      (∀ v ∈ a.map Prod.fst, v ∈ p.vars) →
      consistent p a = true →
      backtrack p d fuel a = some r →
      (r.map Prod.fst).Nodup ∧ (∀ v ∈ r.map Prod.fst, v ∈ p.vars) ∧
        assignment_complete p r = true ∧ consistent p r = true := by
  intro fuel
  induction fuel with
  | zero =>
    intro a r _ _ _ h
    exact absurd h (by simp [backtrack])
  | succ fuel ih =>
    intro a r hk hsub hcons hrun
    by_cases hc : assignment_complete p a = true
    · have heq : some a = some r := by simpa [backtrack, hc] using hrun
      obtain rfl := Option.some.inj heq
      exact ⟨hk, hsub, hc, hcons⟩
    · have hcf : assignment_complete p a = false := Bool.eq_false_iff.mpr hc
      cases hs : select_unassigned_variable p d a with
      | none =>
        exfalso
        simp [backtrack, hcf, hs] at hrun
      | some var =>
        have hrun2 := hrun
        simp only [backtrack, hcf, Bool.false_eq_true, if_false, hs] at hrun2
        obtain ⟨value, hvmem, hval⟩ := exists_of_findSome?_eq_some hrun2

        by_cases hcv : consistent p (a ++ [(var, value)]) = true
        · rw [if_pos hcv] at hval
          exact ih _ r (keys_concat_nodup value hk (select_unassigned hs))
            (keys_concat_sub value hsub (select_mem_vars hs)) hcv hval
        · rw [if_neg hcv] at hval
          exact absurd hval (by simp)

theorem unassigned_count_concat {p : Puzzle} {a : Assignment} {var : Var}
    (value : Word) (hvar : var ∈ p.vars) (hun : assignLookup a var = none)
    (hnd : p.vars.Nodup) :
    (p.vars.filter (fun v => (assignLookup (a ++ [(var, value)]) v).isNone)).length + 1 =
      (p.vars.filter (fun v => (assignLookup a v).isNone)).length := by
  have hpt : ∀ v, (assignLookup (a ++ [(var, value)]) v).isNone =
      ((assignLookup a v).isNone && ! (v == var)) := by
    intro v
    rw [assignLookup_append]
    cases hl : assignLookup a v with
    | some w => rfl
    | none =>
      show (assignLookup [(var, value)] v).isNone = (true && ! (v == var))
      rw [assignLookup_cons]
      by_cases hv : var = v
      · subst hv
        simp [assignLookup]
      · rw [if_neg hv]
        simp [assignLookup, Ne.symm hv]
  have hfeq : p.vars.filter (fun v => (assignLookup (a ++ [(var, value)]) v).isNone) =
      (p.vars.filter (fun v => (assignLookup a v).isNone)).filter
        (fun v => ! (v == var)) := by
    rw [List.filter_filter]
    apply List.filter_congr
    intro v _
    rw [hpt v]
    exact Bool.and_comm _ _
  rw [hfeq]
  exact filter_ne_length (List.Nodup.filter _ hnd)
    (List.mem_filter.mpr ⟨hvar, by simp [hun]⟩)

theorem consistent_concat_of_solution {p : Puzzle} {d : Domains} {f : Var → Word}
    (hf : Solution p d f) {a : Assignment}
    (hk : (a.map Prod.fst).Nodup)
    (hsub : ∀ v ∈ a.map Prod.fst, v ∈ p.vars)
    (hext : ∀ e ∈ a, f e.1 = e.2) :
    consistent p a = true := by
  obtain ⟨hfdom, hflen, hfinj, hfov⟩ := hf
  refine (consistent_eq_true_iff hk).mpr ⟨?_, ?_, ?_⟩
  · intro x y wx wy hlx hly hxy hww
    have hmx := mem_of_assignLookup_eq_some hlx
    have hmy := mem_of_assignLookup_eq_some hly
    have h1 : f x = wx := hext _ hmx
    have h2 : f y = wy := hext _ hmy
    have hx : x ∈ p.vars := hsub x (List.mem_map_of_mem Prod.fst hmx)
    have hy : y ∈ p.vars := hsub y (List.mem_map_of_mem Prod.fst hmy)
    exact hfinj x hx y hy hxy (by rw [h1, h2, hww])
  · intro v w hl
    have hm := mem_of_assignLookup_eq_some hl
    have h1 : f v = w := hext _ hm
    rw [← h1]
    exact hflen v (hsub v (List.mem_map_of_mem Prod.fst hm))
  · intro x hx y hy i j wx wy hov hlx hly
    have h1 : f x = wx := hext _ (mem_of_assignLookup_eq_some hlx)
    have h2 : f y = wy := hext _ (mem_of_assignLookup_eq_some hly)
    rw [← h1, ← h2]
    exact hfov x hx y hy i j hov

theorem backtrack_complete {p : Puzzle} {d : Domains} (hWF : WF p) {f : Var → Word}
    (hf : Solution p d f) :
    ∀ (fuel : Nat) (a : Assignment),
      (a.map Prod.fst).Nodup →
      (∀ v ∈ a.map Prod.fst, v ∈ p.vars) →
      (∀ e ∈ a, f e.1 = e.2) →
      (p.vars.filter (fun v => (assignLookup a v).isNone)).length < fuel →
      backtrack p d fuel a ≠ none := by
  intro fuel
  induction fuel with
  | zero =>
    intro a _ _ _ hcount
    exact absurd hcount (Nat.not_lt_zero _)
  | succ fuel ih =>
    intro a hk hsub hext hcount
    by_cases hc : assignment_complete p a = true
    · simp [backtrack, hc]
    · have hcf : assignment_complete p a = false := Bool.eq_false_iff.mpr hc
      have hun : p.vars.filter (fun v => (assignLookup a v).isNone) ≠ [] := by
        intro hnil
        apply hc
        apply assignment_complete_of_all_assigned hWF hk hsub
        intro v hv
        cases hl : assignLookup a v with
        | none =>
          exfalso
          have hmem : v ∈ p.vars.filter (fun u => (assignLookup a u).isNone) :=
            List.mem_filter.mpr ⟨hv, by simp [hl]⟩
          rw [hnil] at hmem
          exact absurd hmem (List.not_mem_nil v)
        | some w =>
          refine ⟨w, rfl, ?_⟩
          have hfv : f v = w := hext _ (mem_of_assignLookup_eq_some hl)
          rw [← hfv]
          exact hf.2.1 v hv
      obtain ⟨var, hs⟩ := select_isSome_of_unassigned (d := d) hun
      have hvarv := select_mem_vars hs
      have hvun : assignLookup a var = none := select_unassigned hs
      have hk2 := keys_concat_nodup (f var) hk hvun
      have hsub2 := keys_concat_sub (p := p) (f var) hsub hvarv
      have hext2 : ∀ e ∈ a ++ [(var, f var)], f e.1 = e.2 := by
        intro e he
        rcases List.mem_append.mp he with h1 | h1
        · exact hext e h1
        · simp only [List.mem_singleton] at h1
          subst h1
          rfl
      intro hnone
      simp only [backtrack, hcf, Bool.false_eq_true, if_false, hs] at hnone
      have hfv := findSome?_eq_none_iff.mp hnone (f var)
        ((mem_order_domain_values p d a var (f var)).mpr (hf.1 var hvarv))

      have hconsa2 : consistent p (a ++ [(var, f var)]) = true :=
        consistent_concat_of_solution hf hk2 hsub2 hext2
      rw [if_pos hconsa2] at hfv
      have hcount2 := unassigned_count_concat (p := p) (a := a) (f var) hvarv hvun
        hWF.nodupVars
      exact ih (a ++ [(var, f var)]) hk2 hsub2 hext2 (by omega) hfv


/-! ### The claims -/

/-- Claim C1: whenever `solve` (preprocessing followed by `backtrack` from the
empty assignment) completes and returns a non-`None` result, that result is a
complete assignment (every variable mapped to a word of matching length) and
is consistent (no duplicate words, lengths match, overlap characters agree);
and when it returns `None` with enough recursion depth, no complete
consistent assignment exists over the post-propagation domains. -/
theorem claim_C1_solve_correct (p : Puzzle) (fuel : Nat) (d2 : Domains) (b : Bool)
    (hWF : WF p) (hpre : preprocess p fuel = some (d2, b)) :
    (∀ a, solve p fuel = some (some a) → CompleteAsg p a ∧ ConsistentAsg p a) ∧
    (p.vars.length < fuel → solve p fuel = some none → ¬ ∃ f, Solution p d2 f) := by
  have hsolve : solve p fuel = some (backtrack p d2 fuel []) := by
    unfold solve
    rw [hpre]
    rfl
  constructor
  · intro a ha
    rw [hsolve] at ha
    have hbt : backtrack p d2 fuel [] = some a := Option.some.inj ha
    have hres := backtrack_sound fuel [] a (by simp) (by simp) (consistent_nil p) hbt
    exact ⟨completeAsg_of_assignment_complete hres.2.2.1,
      (consistent_eq_true_iff hres.1).mp hres.2.2.2⟩
  · intro hfuel hnone hex
    obtain ⟨f, hsol⟩ := hex
    rw [hsolve] at hnone
    have hbt : backtrack p d2 fuel [] = none := Option.some.inj hnone
    have hcount : (p.vars.filter (fun v => (assignLookup [] v).isNone)).length < fuel := by
      have hfe : p.vars.filter (fun v => (assignLookup [] v).isNone) = p.vars :=
        List.filter_eq_self.mpr (fun u _ => by simp [assignLookup])
      rw [hfe]
      exact hfuel
    exact backtrack_complete hWF hsol fuel [] (by simp) (by simp) (by simp) hcount hbt

/-- Claim C1 witness: on the one-slot puzzle `P1`, preprocessing completes
and `solve` returns the complete consistent assignment `{0 ↦ cat}`. -/
theorem claim_C1_witness :
    WF P1 ∧ preprocess P1 3 = some (d1pre, true) ∧
      (CompleteAsg P1 [(0, catW)] ∧ ConsistentAsg P1 [(0, catW)]) := by
  have hWF : WF P1 := ⟨by decide, by decide, by decide⟩
  exact ⟨hWF, rfl, (claim_C1_solve_correct P1 3 d1pre true hWF rfl).1 [(0, catW)] rfl⟩

/-- Claim C2: for every assignment (a dict, so with distinct keys),
`consistent` returns true exactly when no two distinct variables share a
word, every word's length matches its variable, and every overlapping pair of
assigned variables agrees at the overlap offsets — in particular it accepts
the empty and every defect-free partial assignment. -/
theorem claim_C2_consistent_iff (p : Puzzle) (a : Assignment)
    (hk : (a.map Prod.fst).Nodup) :
    consistent p a = true ↔ ConsistentAsg p a :=
  consistent_eq_true_iff hk

/-- Claim C2 witness: the singleton assignment `{0 ↦ cat}` on `P1`. -/
theorem claim_C2_witness :
    (([(0, catW)] : Assignment).map Prod.fst).Nodup ∧
      (consistent P1 [(0, catW)] = true ↔ ConsistentAsg P1 [(0, catW)]) :=
  ⟨by decide, claim_C2_consistent_iff P1 [(0, catW)] (by decide)⟩

/-- Claim C3: after `ac3` run with its default arc list returns true, every
pair of variables with a defined overlap is arc-consistent: each word left in
the first domain has a supporting word in the second domain at the overlap
offsets. -/
theorem claim_C3_ac3_arc_consistent (p : Puzzle) (d : Domains) (fuel : Nat)
    (d2 : Domains) (hWF : WF p) (hrun : ac3 p d fuel none = some (d2, true)) :
    ∀ x ∈ p.vars, ∀ y ∈ p.vars, ArcCons p d2 x y := by
  unfold ac3 at hrun
  apply ac3Loop_true_sound hWF fuel d (defaultArcs p).reverse d2
    (defaultArcs_valid p) ?_ hrun
  intro u hu w hw huw hov
  exact Or.inl (mem_defaultArcs hu hw huw hov)

/-- Claim C3 witness: the crossing puzzle `P2`, where `ac3` prunes both
domains and returns true. -/
theorem claim_C3_witness :
    WF P2 ∧ ac3 P2 d2pre 9 none = some (d2post, true) ∧
      (∀ x ∈ P2.vars, ∀ y ∈ P2.vars, ArcCons P2 d2post x y) := by
  have hWF : WF P2 := ⟨by decide, by decide, by decide⟩
  exact ⟨hWF, rfl, claim_C3_ac3_arc_consistent P2 d2pre 9 d2post hWF rfl⟩

/-- Claim C4: the claim says `revise` on a non-overlapping pair is a no-op
returning false, but the source checks the overlap inside the loop over
`y`'s words, so no word ever finds a "corresponding" word: on `P4` (no
overlaps, `x`'s domain `{a}`, `y`'s domain `{b}`) `revise` empties `x`'s
domain and returns true. -/
theorem claim_C4_revise_no_overlap_eval :
    P4.overlaps 0 1 = none ∧ d4 0 = [aW] ∧ d4 1 = [bW] ∧
      (revise P4 d4 0 1).2 = true ∧ (revise P4 d4 0 1).1 0 = [] := by
  refine ⟨rfl, rfl, rfl, ?_, ?_⟩ <;> decide

/-- Claim C5 counterexample: on `P6` with its (already empty) domain store,
`ac3` has no arcs to process and returns true even though variable 0's
domain is empty when the worklist finishes — refuting the claimed
equivalence. -/
theorem claim_C5_counterexample :
    ac3 P6 dempty 1 none = some (dempty, true) ∧ 0 ∈ P6.vars ∧ dempty 0 = [] :=
  ⟨rfl, by decide, rfl⟩

/-- Claim C5 amended: provided every domain is non-empty when `ac3` starts,
`ac3` (with its default arc list) returns false exactly when some variable's
domain is empty when processing finishes; in particular a run returning true
leaves no domain empty. -/
theorem claim_C5_amended (p : Puzzle) (d : Domains) (fuel : Nat) (d2 : Domains)
    (b : Bool) (hWF : WF p) (hne : ∀ v ∈ p.vars, d v ≠ [])
    (hrun : ac3 p d fuel none = some (d2, b)) :
    b = false ↔ ∃ v ∈ p.vars, d2 v = [] := by
  unfold ac3 at hrun
  have hrep := ac3Loop_empty_report hWF fuel d (defaultArcs p).reverse d2 b
    (defaultArcs_valid p) hne hrun
  constructor
  · exact hrep.2
  · intro hex
    cases hb : b with
    | false => rfl
    | true =>
      exfalso
      obtain ⟨v, hv, hemp⟩ := hex
      exact (hrep.1 hb v hv) hemp

/-- Claim C5 amended witness: on `P3` all domains are non-empty, the run
returns true, and no domain ends empty. -/
theorem claim_C5_witness :
    WF P3 ∧ (∀ v ∈ P3.vars, d3pre v ≠ []) ∧
      ac3 P3 d3pre 9 none = some (d3post, true) ∧
      ((true : Bool) = false ↔ ∃ v ∈ P3.vars, d3post v = []) := by
  have hWF : WF P3 := ⟨by decide, by decide, by decide⟩
  exact ⟨hWF, by decide, rfl, claim_C5_amended P3 d3pre 9 d3post true hWF (by decide) rfl⟩

/-- Claim C6 counterexample: on `P6` node consistency empties variable 0's
domain, and `solve` does return `None` — but the instrumented run records
that the backtracking search was invoked (the source discards `ac3`'s result
and calls `backtrack` unconditionally), refuting "without invoking the
backtracking search at all". -/
theorem claim_C6_counterexample :
    d6pre 0 = [] ∧ solveInstr P6 2 = some (none, true) := by
  constructor <;> decide

/-- Claim C6 amended: when preprocessing leaves some variable's domain empty,
`solve` reports unsolvable (returns `None`), but it does invoke the
backtracking search, which fails immediately because the
minimum-remaining-values selection picks the empty-domain variable. -/
theorem claim_C6_amended (p : Puzzle) (fuel : Nat) (d2 : Domains) (b : Bool)
    (hpre : preprocess p fuel = some (d2, b)) (hempty : ∃ v ∈ p.vars, d2 v = []) :
    solveInstr p fuel = some (none, true) := by
  unfold solveInstr
  rw [hpre]
  show some (backtrack p d2 fuel [], true) = some (none, true)
  rw [backtrack_none_of_empty_domain hempty fuel]

/-- Claim C6 amended witness: the concrete puzzle `P6`. -/
theorem claim_C6_witness :
    preprocess P6 2 = some (d6pre, true) ∧ (∃ v ∈ P6.vars, d6pre v = []) ∧
      solveInstr P6 2 = some (none, true) :=
  ⟨rfl, ⟨0, by decide, by decide⟩,
    claim_C6_amended P6 2 d6pre true rfl ⟨0, by decide, by decide⟩⟩

/-- Claim C7 counterexample: on `P7` variables 0 and 1 are unassigned with
equal minimal domain size; variable 1 has strictly more unassigned neighbors
than variable 0, yet `select_unassigned_variable` returns 0 (its tie-break
uses the total neighbor count, where 0 wins) — refuting the claimed
unassigned-neighbor tie-break. -/
theorem claim_C7_counterexample :
    select_unassigned_variable P7 d7 a7 = some 0 ∧
    assignLookup a7 0 = none ∧ assignLookup a7 1 = none ∧ 1 ∈ P7.vars ∧
    (d7 0).length = (d7 1).length ∧
    (∀ u ∈ P7.vars, assignLookup a7 u = none → (d7 0).length ≤ (d7 u).length) ∧
    unassigned_degree P7 a7 0 < unassigned_degree P7 a7 1 := by
  refine ⟨?_, ?_, ?_, ?_, ?_, ?_, ?_⟩ <;> decide

/-- Claim C7 amended: whenever some variable is unassigned,
`select_unassigned_variable` returns an unassigned variable of minimal
domain size, and among those of minimal size one of maximal *total* degree
(number of neighbors, assigned or not); any remaining tie is broken by
iteration order. -/
theorem claim_C7_amended (p : Puzzle) (d : Domains) (a : Assignment)
    (hne : p.vars.filter (fun v => (assignLookup a v).isNone) ≠ []) :
    ∃ r, select_unassigned_variable p d a = some r ∧ r ∈ p.vars ∧
      assignLookup a r = none ∧
      (∀ u ∈ p.vars, assignLookup a u = none → (d r).length ≤ (d u).length) ∧
      (∀ u ∈ p.vars, assignLookup a u = none →
        (d u).length = (d r).length → degree p u ≤ degree p r) := by
  obtain ⟨r, hs⟩ := select_isSome_of_unassigned (d := d) hne
  exact ⟨r, hs, select_mem_vars hs, select_unassigned hs, select_min_size hs,
    select_max_degree hs⟩

/-- Claim C7 amended witness: the concrete state on `P7`. -/
theorem claim_C7_witness :
    P7.vars.filter (fun v => (assignLookup a7 v).isNone) ≠ [] ∧
      (∃ r, select_unassigned_variable P7 d7 a7 = some r ∧ r ∈ P7.vars ∧
        assignLookup a7 r = none ∧
        (∀ u ∈ P7.vars, assignLookup a7 u = none → (d7 r).length ≤ (d7 u).length) ∧
        (∀ u ∈ P7.vars, assignLookup a7 u = none →
          (d7 u).length = (d7 r).length → degree P7 u ≤ degree P7 r)) :=
  ⟨by decide, claim_C7_amended P7 d7 a7 (by decide)⟩

/-- Claim C8 counterexample: on `P8` the first default-worklist `ac3` run
fails (returns false) leaving variable 0's domain `{a}`, and a second run
then empties variable 0's domain — the second run does change a domain,
refuting unconditional idempotence. -/
theorem claim_C8_counterexample :
    ((ac3 P8 d8pre 9 none).map (fun r => r.1 0)) = some [aW] ∧
    ((ac3 P8 d8pre 9 none).map (fun r => r.2)) = some false ∧
    ((ac3Twice P8 d8pre 9).map (fun r => r.1 0)) = some [] := by
  refine ⟨?_, ?_, ?_⟩ <;> decide

/-- Claim C8 amended: when the first default-worklist `ac3` run returns
true, a second run changes nothing: it returns the same domains (and true)
again. -/
theorem claim_C8_amended (p : Puzzle) (d : Domains) (fuel1 fuel2 : Nat)
    (d1 d2 : Domains) (b2 : Bool) (hWF : WF p)
    (hrun1 : ac3 p d fuel1 none = some (d1, true))
    (hrun2 : ac3 p d1 fuel2 none = some (d2, b2)) :
    d2 = d1 ∧ b2 = true := by
  have hcons : ∀ u ∈ p.vars, ∀ w ∈ p.vars, ArcCons p d1 u w := by
    unfold ac3 at hrun1
    apply ac3Loop_true_sound hWF fuel1 d (defaultArcs p).reverse d1
      (defaultArcs_valid p) ?_ hrun1
    intro u hu w hw huw hov
    exact Or.inl (mem_defaultArcs hu hw huw hov)
  unfold ac3 at hrun2
  have hst := ac3Loop_stable fuel2 d1 (defaultArcs p).reverse (d2, b2)
    (defaultArcs_valid p) hcons hrun2
  exact ⟨(Prod.ext_iff.mp hst).1, (Prod.ext_iff.mp hst).2⟩

/-- Claim C8 amended witness: on `P3`, both runs complete and the second
changes nothing. -/
theorem claim_C8_witness :
    WF P3 ∧ ac3 P3 d3pre 9 none = some (d3post, true) ∧
      ac3 P3 d3post 9 none = some (d3post2, true) ∧
      (d3post2 = d3post ∧ (true : Bool) = true) := by
  have hWF : WF P3 := ⟨by decide, by decide, by decide⟩
  exact ⟨hWF, rfl, rfl, claim_C8_amended P3 d3pre 9 9 d3post d3post2 true hWF rfl rfl⟩

/-- Claim C9: the search phase never modifies the domain store: `backtrack`
with the store threaded through every call (as the mutable `self.domains`
is) returns the store exactly as it received it, alongside the same result
as the pure reading of `backtrack`; only preprocessing shrinks domains. -/
theorem claim_C9_search_frame (p : Puzzle) (fuel : Nat) (d : Domains)
    (a : Assignment) : backtrackS p fuel d a = (backtrack p d fuel a, d) :=
  backtrackS_eq p fuel d a

/-- Claim C10: if some variable's domain is empty when `backtrack` is called
on the empty assignment, the minimum-remaining-values selection picks an
empty-domain variable, `order_domain_values` yields no candidates, and the
search returns `None`. -/
theorem claim_C10_backtrack_empty (p : Puzzle) (d : Domains) (fuel : Nat)
    (hempty : ∃ v ∈ p.vars, d v = []) :
    backtrack p d fuel [] = none :=
  backtrack_none_of_empty_domain hempty fuel

/-- Claim C10 witness: the empty store on `P6`. -/
theorem claim_C10_witness :
    (∃ v ∈ P6.vars, dempty v = []) ∧ backtrack P6 dempty 5 [] = none :=
  ⟨⟨0, by decide, rfl⟩, claim_C10_backtrack_empty P6 dempty 5 ⟨0, by decide, rfl⟩⟩

end CrosswordCSP
